import Mathlib

/-!
Verification of the layout engine in `src/components/DayView.tsx` of the
easechaos repository: time-string parsing, percentage positioning, multi-line
slot splitting, continuation-group merging, overlap annotation, and the
course-color lookup table.

The TypeScript is embedded shallowly: JavaScript numbers that can be NaN are
modelled as `Option ℚ` (`none` = NaN), fresh-object versus by-reference
aliasing in the merge accumulator is made explicit by the `MergedEntry` type,
and the stable `Array.prototype.sort` is modelled by `List.insertionSort`.
-/

namespace DayView

/-- A JavaScript number as it occurs in this pipeline: `some q` is the finite
value `q`, `none` is NaN (and also `undefined` flowing into arithmetic, which
JS coerces to NaN). No call site can produce an infinity. -/
abbrev JNum := Option ℚ

/-- Exact rational addition, written with the kernel-computable smart
constructor `mkRat` (the library's `Rat.add` is `@[irreducible]`); proved
equal to `+` below. -/
def qAdd (a b : ℚ) : ℚ :=
  mkRat (a.num * b.den + b.num * a.den) (a.den * b.den)

/-- Exact rational subtraction via `mkRat`; proved equal to `-` below. -/
def qSub (a b : ℚ) : ℚ :=
  mkRat (a.num * b.den - b.num * a.den) (a.den * b.den)

/-- Exact rational multiplication via `mkRat`; proved equal to `*` below. -/
def qMul (a b : ℚ) : ℚ :=
  mkRat (a.num * b.num) (a.den * b.den)

/-- Exact rational division via `Rat.divInt`; proved equal to `/` below. -/
def qDiv (a b : ℚ) : ℚ :=
  Rat.divInt (a.num * b.den) (a.den * b.num)

/-- JS `+` : NaN propagates. -/
def jadd : JNum → JNum → JNum
  | some x, some y => some (qAdd x y)
  | _, _ => none

/-- JS binary `-` : NaN propagates. -/
def jsub : JNum → JNum → JNum
  | some x, some y => some (qSub x y)
  | _, _ => none

/-- JS `*` : NaN propagates. -/
def jmul : JNum → JNum → JNum
  | some x, some y => some (qMul x y)
  | _, _ => none

/-- JS `/` : NaN propagates. Every division in the source has the non-zero
constant divisor 13 or 60, so the JS `x / 0 = ±Infinity` case is unreachable
and mapped to `none`. -/
def jdiv : JNum → JNum → JNum
  | some x, some y => if y = 0 then none else some (qDiv x y)
  | _, _ => none

/-- JS `>=` : any comparison involving NaN is false. -/
def jge : JNum → JNum → Bool
  | some x, some y => decide (y ≤ x)
  | _, _ => false

/-- Value of a list of decimal digit characters, most significant first
(the accumulator loop of a decimal numeral). -/
def digitsToNat (cs : List Char) : ℕ :=
  cs.foldl (fun a c => 10 * a + (c.toNat - 48)) 0

/-- Splits a character list at every occurrence of `sep`, keeping empty
pieces: the model of JS `String.prototype.split` with a one-character
separator string. -/
def splitOnChar (sep : Char) : List Char → List (List Char)
  | [] => [[]]
  | c :: cs =>
    if c = sep then [] :: splitOnChar sep cs
    else
      match splitOnChar sep cs with
      | [] => [[c]]
      | r :: rs => (c :: r) :: rs

/-- Model of JS `Number()` on the string fragments this program feeds it: the
empty string coerces to `0`, an unsigned decimal numeral (with an optional
fractional part) to its value, and everything else to NaN. Signed numerals,
exponents, hex literals and surrounding whitespace never occur in schedule
time strings and are also mapped to NaN. -/
def jsNum (cs : List Char) : JNum :=
  if cs.isEmpty then some 0
  else
    match splitOnChar '.' cs with
    | [intPart] =>
      if intPart.all Char.isDigit then some (digitsToNat intPart : ℚ) else none
    | [intPart, fracPart] =>
      if intPart.all Char.isDigit && fracPart.all Char.isDigit then
        some (qAdd (digitsToNat intPart : ℚ)
          (qDiv (digitsToNat fracPart : ℚ) ((10 ^ fracPart.length : ℕ) : ℚ)))
      else none
    | _ => none

/-- `convertTimeToNumber` from DayView.tsx:
`const [hours, minutes] = timeStr.split(':').map(Number); return hours + minutes / 60;`.
A missing destructuring component is JS `undefined`, which the arithmetic
coerces to NaN; both are `none` here. -/
def convertTimeToNumber (timeStr : String) : JNum :=
  let parts := (splitOnChar ':' timeStr.data).map jsNum
  let hours := parts.getD 0 none
  let minutes := parts.getD 1 none
  jadd hours (jdiv minutes (some 60))

/-- The inline position mapping `((startTime - 7) / 13) * 100` of
DayView.tsx, on JS numbers. -/
def jPosition (h : JNum) : JNum :=
  jmul (jdiv (jsub h (some 7)) (some 13)) (some 100)

/-- The spec's position mapping `position(h) = (h - 7) / 13 * 100` (§4.1) on
exact hours. -/
def positionOf (h : ℚ) : ℚ :=
  (h - 7) / 13 * 100

/-- One raw schedule cell (`TimeSlot` of `src/types`): a time range and an
optional multi-line text value. -/
structure TimeSlot where
  start : String
  «end» : String
  value : Option String
  deriving DecidableEq, Repr

/-- A day's ordered sequence of slots (`DaySchedule`). -/
structure DaySchedule where
  data : List TimeSlot
  deriving DecidableEq, Repr

/-- The engine's output record (`PositionedEvent` of DayView.tsx).
`isOverlapping` is the optional TS field: `none` models the field being
absent (`undefined`, falsy) before the overlap pass assigns it. -/
structure PositionedEvent where
  start : String
  «end» : String
  value : String
  startPosition : JNum
  duration : JNum
  isOverlapping : Option Bool := none
  splitIndex : ℕ
  totalSplits : ℕ
  continuationGroup : Option String
  deriving DecidableEq, Repr

instance : Inhabited PositionedEvent :=
  ⟨{ start := "", «end» := "", value := "", startPosition := none, duration := none,
     splitIndex := 0, totalSplits := 0, continuationGroup := none }⟩

/-- JS truthiness of the optional `slot.value` (`Boolean(slot.value)`):
`undefined` and `""` are falsy, every other string truthy. -/
def truthyValue : Option String → Bool
  | none => false
  | some s => !s.isEmpty

/-- `splitEventValue` from DayView.tsx: `value.split('\n').filter(Boolean)` —
split on newlines, drop empty (falsy) lines. -/
def splitEventValue (value : String) : List String :=
  ((splitOnChar '\n' value.data).map (fun cs => String.mk cs)).filter
    (fun s => !s.isEmpty)

/-- ASCII upper-case letter, the `[A-Z]` class of the continuation regex. -/
def isAsciiUpper (c : Char) : Bool :=
  'A' ≤ c && c ≤ 'Z'

/-- Whether `/CE \d[A-Z] \d{3}/` matches at the start of `cs`, returning the
matched text. -/
def matchCEHead : List Char → Option String
  | 'C' :: 'E' :: ' ' :: d1 :: u :: ' ' :: d2 :: d3 :: d4 :: _ =>
    if d1.isDigit && isAsciiUpper u && d2.isDigit && d3.isDigit && d4.isDigit then
      some (String.mk [ 'C', 'E', ' ', d1, u, ' ', d2, d3, d4])
    else none
  | _ => none

/-- Leftmost match of `/CE \d[A-Z] \d{3}/`: the model of
`value.match(/CE \d[A-Z] \d{3}/)?.[0]` in DayView.tsx. -/
def findCEMatch : List Char → Option String
  | [] => none
  | c :: cs =>
    match matchCEHead (c :: cs) with
    | some m => some m
    | none => findCEMatch cs

/-- The body of the `flatMap` in `processedEvents`: all events generated from
one kept slot. `slot.value.getD ""` reflects the TS type narrowing — the
filter has already established the value is present. -/
def eventsOfSlot (slot : TimeSlot) : List PositionedEvent :=
  let startTime := convertTimeToNumber slot.start
  let endTime := convertTimeToNumber slot.«end»
  let startPosition := jPosition startTime
  let duration := jmul (jdiv (jsub endTime startTime) (some 13)) (some 100)
  let values := splitEventValue (slot.value.getD "")
  values.enum.map (fun p =>
    { start := slot.start
      «end» := slot.«end»
      value := p.2
      startPosition := startPosition
      duration := duration
      splitIndex := p.1
      totalSplits := values.length
      continuationGroup := findCEMatch p.2.data })

/-- The flat event list before the `.sort(...)` call. -/
def preSortEvents (schedule : DaySchedule) : List PositionedEvent :=
  (schedule.data.filter (fun slot => truthyValue slot.value)).flatMap eventsOfSlot

/-- The comparator `(a, b) => a.startPosition - b.startPosition` as a
relation. When both positions are numbers this is exactly `≤` on them. A NaN
position makes the comparator return NaN, for which ECMA-262 leaves the sort
order implementation-defined; the model places NaN positions first, which is
one admissible order, and no claim depends on the NaN ordering. -/
def sortLEb (a b : PositionedEvent) : Bool :=
  match a.startPosition, b.startPosition with
  | some x, some y => decide (x ≤ y)
  | none, _ => true
  | some _, none => false

def sortLE (a b : PositionedEvent) : Prop :=
  sortLEb a b = true

instance : DecidableRel sortLE := fun a b => instDecidableEqBool (sortLEb a b) true

instance : IsTotal PositionedEvent sortLE := by
  constructor
  intro a b
  rcases ha : a.startPosition with _ | x <;> rcases hb : b.startPosition with _ | y <;>
    simp [sortLE, sortLEb, ha, hb]
  exact le_total x y

instance : IsTrans PositionedEvent sortLE := by
  constructor
  intro a b c hab hbc
  rcases ha : a.startPosition with _ | x <;> rcases hb : b.startPosition with _ | y <;>
    rcases hc : c.startPosition with _ | z <;> simp_all [sortLE, sortLEb]
  exact le_trans hab hbc

/-- `processedEvents` from DayView.tsx: keep truthy-valued slots, flatMap each
to its positioned events, then `.sort((a, b) => a.startPosition - b.startPosition)`.
`Array.prototype.sort` is stable, and every stable sort agrees with
`List.insertionSort` for a consistent comparator. -/
def processedEvents (schedule : DaySchedule) : List PositionedEvent :=
  (preSortEvents schedule).insertionSort sortLE

/-- The per-key lists of the `currentGroup` object of DayView.tsx: all
pre-merge events whose `continuationGroup` is `k`, in list order. -/
def groupFor (evs : List PositionedEvent) (k : String) : List PositionedEvent :=
  evs.filter (fun e => e.continuationGroup == some k)

/-- Index of the first event carrying key `k`. The source's guard
`event === group[0]` compares object identity; the elements of
`processedEvents` are pairwise distinct fresh objects, so the guard holds
exactly for the event at this index. -/
def firstKeyIdx (evs : List PositionedEvent) (k : String) : ℕ :=
  evs.findIdx (fun e => e.continuationGroup == some k)

/-- The merged replacement `{...event, end: lastEvent.end, duration: ((convertTimeToNumber(lastEvent.end) - convertTimeToNumber(event.start)) / 13) * 100}`. -/
def mkMergedEvent (event lastEvent : PositionedEvent) : PositionedEvent :=
  { event with
    «end» := lastEvent.«end»
    duration := jmul (jdiv (jsub (convertTimeToNumber lastEvent.«end»)
      (convertTimeToNumber event.start)) (some 13)) (some 100) }

/-- One entry of the merge accumulator. `ref i e` is the original object
`processedEvents[i]` pushed by reference, so later in-place mutation of the
pre-merge objects stays visible through it; `fresh e` is the new object built
by the spread in the merge branch, invisible to that mutation. -/
inductive MergedEntry where
  | ref : ℕ → PositionedEvent → MergedEntry
  | fresh : PositionedEvent → MergedEntry
  deriving DecidableEq, Repr

/-- The body of the `reduce` building `mergedEvents`, for the event at
index `i` of the pre-merge list `evs`. The first branch keeps events without
a key (or, vacuously, with a key whose group is absent); groups of size ≤ 1
pass through; in larger groups only the first event survives, replaced by the
merged copy. -/
def mergeStep (evs : List PositionedEvent) (acc : List MergedEntry)
    (i : ℕ) (event : PositionedEvent) : List MergedEntry :=
  match event.continuationGroup with
  | none => acc ++ [MergedEntry.ref i event]
  | some k =>
    let group := groupFor evs k
    if group.length = 0 then acc ++ [MergedEntry.ref i event]
    else if group.length ≤ 1 then acc ++ [MergedEntry.ref i event]
    else if i = firstKeyIdx evs k then
      acc ++ [MergedEntry.fresh (mkMergedEvent event (group.getLastD event))]
    else acc

/-- The accumulator of `mergedEvents` run over the whole pre-merge list. -/
def mergedEntries (evs : List PositionedEvent) : List MergedEntry :=
  evs.enum.foldl (fun acc p => mergeStep evs acc p.1 p.2) []

/-- The event value held by a merge-accumulator entry. -/
def entryEvent : MergedEntry → PositionedEvent
  | MergedEntry.ref _ e => e
  | MergedEntry.fresh e => e

/-- `mergedEvents` of DayView.tsx as a list of event values, read before the
overlap pass mutates the pre-merge objects. -/
def mergedEvents (evs : List PositionedEvent) : List PositionedEvent :=
  (mergedEntries evs).map entryEvent

/-- The negated disjointness test of the overlap scan:
`!(otherEvent.startPosition >= event.startPosition + event.duration || event.startPosition >= otherEvent.startPosition + otherEvent.duration)`. -/
def overlapsB (e o : PositionedEvent) : Bool :=
  !(jge o.startPosition (jadd e.startPosition e.duration) ||
    jge e.startPosition (jadd o.startPosition o.duration))

/-- The `forEach` overlap pass over `processedEvents`:
`event.isOverlapping = overlappingEvents.length > 0`, where
`overlappingEvents` are the events at a different index whose position
interval is not disjoint from this one's. The in-place mutation of each
`processedEvents[index]` is modelled by rebuilding the list. -/
def annotateOverlaps (evs : List PositionedEvent) : List PositionedEvent :=
  evs.enum.map (fun p =>
    { p.2 with isOverlapping := some (decide (0 <
        (evs.enum.filter (fun q => q.1 != p.1 && overlapsB p.2 q.2)).length)) })

/-- How one merge-accumulator entry reads after the overlap pass has mutated
the pre-merge objects: a `ref i` entry aliases `processedEvents[i]` and shows
that object's updated `isOverlapping`; a `fresh` entry is a copy made before
the pass and keeps its fields as they were. -/
def renderEntry (evs : List PositionedEvent) : MergedEntry → PositionedEvent
  | MergedEntry.ref i _ => (annotateOverlaps evs).getD i default
  | MergedEntry.fresh e => e

/-- The event list the component finally renders: `mergedEvents`, read after
the overlap pass. -/
def finalEvents (schedule : DaySchedule) : List PositionedEvent :=
  (mergedEntries (processedEvents schedule)).map
    (renderEntry (processedEvents schedule))

/-- One entry of `COLOR_SCHEMES` (from `constants/courseCodes`, whose
contents are external to the analysed source; only its shape matters). -/
structure ColorScheme where
  bg : String
  border : String
  text : String
  deriving DecidableEq, Repr

instance : Inhabited ColorScheme := ⟨⟨"", "", ""⟩⟩

/-- JS array indexing with a possibly negative integer index: any
out-of-range index reads `undefined`. -/
def jsIndex {α : Type} (l : List α) (i : ℤ) : Option α :=
  if h : 0 ≤ i ∧ i.toNat < l.length then some (l.get ⟨i.toNat, h.2⟩) else none

/-- `courseColorMap` from DayView.tsx, parameterised by the two tables the
file imports from `constants/courseCodes`:
`new Map(COURSE_CODES.map((code, index) => [code, COLOR_SCHEMES[index % COLOR_SCHEMES.length - 1]]))`.
JS operator precedence reads the index expression as
`(index % length) - 1`; for an empty table `index % 0` is NaN and indexing
by NaN reads `undefined`, hence `none` in that case. -/
def courseColorMap (courseCodes : List String) (colorSchemes : List ColorScheme) :
    List (String × Option ColorScheme) :=
  courseCodes.enum.map (fun p =>
    (p.2, if colorSchemes.length = 0 then none
          else jsIndex colorSchemes ((p.1 : ℤ) % (colorSchemes.length : ℤ) - 1)))

/-- `Map.prototype.get` on a `Map` built from an entry list: construction
keeps the last entry for a duplicated key, and `get` of an absent key reads
`undefined` (the outer `none`). -/
def mapGet (entries : List (String × Option ColorScheme)) (k : String) :
    Option (Option ColorScheme) :=
  (entries.reverse.find? (fun e => e.1 == k)).map (fun e => e.2)

/-- JS word character, the `\w` class deciding `\b` boundaries:
`[A-Za-z0-9_]`. -/
def isWordChar (c : Char) : Bool :=
  c.isAlpha || c.isDigit || c = '_'

/-- Leftmost match of `/\b\d{3}\b/`; `prev` is the character just before the
scan position (`none` at the start of the string). -/
def findThreeDigitMatch : Option Char → List Char → Option String
  | prev, d1 :: d2 :: d3 :: rest =>
    if d1.isDigit && d2.isDigit && d3.isDigit
        && (match prev with | none => true | some p => !isWordChar p)
        && (match rest with | [] => true | r :: _ => !isWordChar r) then
      some (String.mk [d1, d2, d3])
    else findThreeDigitMatch (some d1) (d2 :: d3 :: rest)
  | _prev, c :: cs => findThreeDigitMatch (some c) cs
  | _, [] => none

/-- `getCourseColor` from DayView.tsx, parameterised like `courseColorMap`
plus the imported `DEFAULT_COLOR`:
`const match = value.match(/\b\d{3}\b/); if (!match) return DEFAULT_COLOR; return courseColorMap.get(match[0]) || DEFAULT_COLOR;`.
A stored scheme object is always truthy, so `|| DEFAULT_COLOR` applies
exactly when the lookup reads `undefined` — either an absent key or a stored
`undefined`. -/
def getCourseColor (courseCodes : List String) (colorSchemes : List ColorScheme)
    (defaultColor : ColorScheme) (value : String) : ColorScheme :=
  match findThreeDigitMatch none value.data with
  | none => defaultColor
  | some m =>
    match mapGet (courseColorMap courseCodes colorSchemes) m with
    | some (some c) => c
    | _ => defaultColor

/-- The decision taken by `mergeStep` for one indexed event: `some` entry to
push, or `none` to drop the event. Used to characterise the accumulator. -/
def mergeDecide (evs : List PositionedEvent) (p : ℕ × PositionedEvent) :
    Option MergedEntry :=
  match p.2.continuationGroup with
  | none => some (MergedEntry.ref p.1 p.2)
  | some k =>
    let group := groupFor evs k
    if group.length = 0 then some (MergedEntry.ref p.1 p.2)
    else if group.length ≤ 1 then some (MergedEntry.ref p.1 p.2)
    else if p.1 = firstKeyIdx evs k then
      some (MergedEntry.fresh (mkMergedEvent p.2 (group.getLastD p.2)))
    else none

/-- Ascending position order on events whose positions are actual numbers:
the order the spec means by "ascending `startPosition` order". -/
def posLE (a b : PositionedEvent) : Prop :=
  ∃ x y, a.startPosition = some x ∧ b.startPosition = some y ∧ x ≤ y

/-- Day used to exercise the continuation merge: a two-slot continuation of
`CE 1A 101` (09:00–11:00 once merged) plus a slot overlapping the merged
span. -/
def mergeDay : DaySchedule :=
  ⟨[⟨"09:00", "10:00", some "CE 1A 101"⟩,
    ⟨"10:00", "11:00", some "CE 1A 101"⟩,
    ⟨"10:30", "11:30", some "Workshop B"⟩]⟩

/-- Day with two time-overlapping single-line slots. -/
def overlapDay : DaySchedule :=
  ⟨[⟨"09:00", "10:00", some "Lecture A"⟩,
    ⟨"09:30", "10:30", some "Lecture B"⟩]⟩

/-- Day with two slots sharing one start time (a sorting tie). -/
def tieDay : DaySchedule :=
  ⟨[⟨"09:00", "10:00", some "Lecture A"⟩,
    ⟨"09:00", "11:00", some "Lecture B"⟩,
    ⟨"08:00", "09:00", some "Lecture C"⟩]⟩

/-- Day whose only slot has an unparseable start hour. -/
def malformedDay : DaySchedule :=
  ⟨[⟨"xx:00", "10:00", some "Lecture A"⟩]⟩

/-- `malformedDay` with its malformed slot removed. -/
def malformedDayRemoved : DaySchedule :=
  ⟨[]⟩

/-- A slot with an unparseable start hour. -/
def badSlot : TimeSlot :=
  ⟨"xx:00", "10:00", some "Lecture A"⟩

/-- A slot whose start parses but whose end hour is unparseable. -/
def badEndSlot : TimeSlot :=
  ⟨"11:00", "yy:00", some "Lecture C"⟩

/-- A start-malformed slot, a well-formed slot, and an end-malformed slot. -/
def mixedDay : DaySchedule :=
  ⟨[badSlot, ⟨"11:00", "12:00", some "Lecture B"⟩, badEndSlot]⟩

/-- A single-line, single-slot day (the spec's scenario 1). -/
def simpleDay : DaySchedule :=
  ⟨[⟨"09:00", "10:00", some "CE 1A 101"⟩]⟩

theorem qAdd_eq (a b : ℚ) : qAdd a b = a + b := by
  have ha : ((a.den : ℚ)) ≠ 0 := Nat.cast_ne_zero.mpr a.den_nz
  have hb : ((b.den : ℚ)) ≠ 0 := Nat.cast_ne_zero.mpr b.den_nz
  rw [qAdd, Rat.mkRat_eq_div]
  conv_rhs => rw [← Rat.num_div_den a, ← Rat.num_div_den b]
  rw [div_add_div _ _ ha hb]
  push_cast
  ring_nf

theorem qSub_eq (a b : ℚ) : qSub a b = a - b := by
  have ha : ((a.den : ℚ)) ≠ 0 := Nat.cast_ne_zero.mpr a.den_nz
  have hb : ((b.den : ℚ)) ≠ 0 := Nat.cast_ne_zero.mpr b.den_nz
  rw [qSub, Rat.mkRat_eq_div]
  conv_rhs => rw [← Rat.num_div_den a, ← Rat.num_div_den b]
  rw [div_sub_div _ _ ha hb]
  push_cast
  ring_nf

theorem qMul_eq (a b : ℚ) : qMul a b = a * b := by
  have ha : ((a.den : ℚ)) ≠ 0 := Nat.cast_ne_zero.mpr a.den_nz
  have hb : ((b.den : ℚ)) ≠ 0 := Nat.cast_ne_zero.mpr b.den_nz
  rw [qMul, Rat.mkRat_eq_div]
  conv_rhs => rw [← Rat.num_div_den a, ← Rat.num_div_den b]
  rw [div_mul_div_comm]
  push_cast
  ring_nf

theorem qDiv_eq (a b : ℚ) : qDiv a b = a / b := by
  rw [qDiv, Rat.divInt_eq_div]
  by_cases hb : b = 0
  · subst hb
    simp
  · have ha : ((a.den : ℚ)) ≠ 0 := Nat.cast_ne_zero.mpr a.den_nz
    have hbd : ((b.den : ℚ)) ≠ 0 := Nat.cast_ne_zero.mpr b.den_nz
    have hbn : ((b.num : ℚ)) ≠ 0 := by
      exact_mod_cast Rat.num_ne_zero.mpr hb
    conv_rhs => rw [← Rat.num_div_den a, ← Rat.num_div_den b]
    push_cast
    field_simp

@[simp] theorem jadd_some (x y : ℚ) : jadd (some x) (some y) = some (x + y) := by
  rw [jadd, qAdd_eq]

@[simp] theorem jsub_some (x y : ℚ) : jsub (some x) (some y) = some (x - y) := by
  rw [jsub, qSub_eq]

@[simp] theorem jmul_some (x y : ℚ) : jmul (some x) (some y) = some (x * y) := by
  rw [jmul, qMul_eq]

theorem jdiv_some {y : ℚ} (hy : y ≠ 0) (x : ℚ) :
    jdiv (some x) (some y) = some (x / y) := by
  rw [jdiv, if_neg hy, qDiv_eq]

theorem splitOnChar_of_not_mem {sep : Char} :
    ∀ {l : List Char}, sep ∉ l → splitOnChar sep l = [l]
  | [], _ => rfl
  | c :: cs, h => by
    have hc : ¬c = sep := fun he => h (he ▸ List.mem_cons_self c cs)
    have hcs : sep ∉ cs := fun hm => h (List.mem_cons_of_mem c hm)
    simp only [splitOnChar, if_neg hc, splitOnChar_of_not_mem hcs]

theorem splitOnChar_append {sep : Char} :
    ∀ {l : List Char} (r : List Char), sep ∉ l →
      splitOnChar sep (l ++ sep :: r) = l :: splitOnChar sep r
  | [], r, _ => by simp [splitOnChar]
  | c :: cs, r, h => by
    have hc : ¬c = sep := fun he => h (he ▸ List.mem_cons_self c cs)
    have hcs : sep ∉ cs := fun hm => h (List.mem_cons_of_mem c hm)
    have ih := splitOnChar_append (l := cs) r hcs
    simp only [List.cons_append, splitOnChar, if_neg hc, List.append_eq, ih]

theorem jsNum_digits {l : List Char} (h1 : l ≠ [])
    (h2 : ∀ c ∈ l, c.isDigit = true) :
    jsNum l = some ((digitsToNat l : ℚ)) := by
  have hdot : '.' ∉ l := by
    intro hm
    have := h2 _ hm
    simp at this
  rw [jsNum, if_neg (by simpa using h1), splitOnChar_of_not_mem hdot]
  simp only [List.all_eq_true]
  rw [if_pos h2]

theorem convertTimeToNumber_digits (hs ms : List Char) (hh : hs ≠ [])
    (hhd : ∀ c ∈ hs, c.isDigit = true) (hm : ms ≠ [])
    (hmd : ∀ c ∈ ms, c.isDigit = true) :
    convertTimeToNumber (String.mk (hs ++ ':' :: ms))
      = some ((digitsToNat hs : ℚ) + (digitsToNat ms : ℚ) / 60) := by
  have hcolh : ':' ∉ hs := by
    intro hmem
    have := hhd _ hmem
    simp at this
  have hcolm : ':' ∉ ms := by
    intro hmem
    have := hmd _ hmem
    simp at this
  have hdata : (String.mk (hs ++ ':' :: ms)).data = hs ++ ':' :: ms := rfl
  rw [convertTimeToNumber, hdata, splitOnChar_append _ hcolh,
    splitOnChar_of_not_mem hcolm]
  simp only [List.map_cons, List.map_nil, List.getD_cons_zero, List.getD_cons_succ]
  rw [jsNum_digits hh hhd, jsNum_digits hm hmd]
  rw [jdiv_some (by norm_num), jadd_some]

theorem jPosition_some (q : ℚ) : jPosition (some q) = some (positionOf q) := by
  rw [jPosition, jsub_some, jdiv_some (by norm_num), jmul_some, positionOf]

/-- C4: on every valid time string `"H:MM"` or `"HH:MM"` — a one- or
two-digit hour field (two digits include the zero-padded forms such as
`"09:00"`) reading 0–23, a colon, and two zero-padded minute digits — the
parser returns `hours + minutes/60`; the inline position expression realises
the mapping `position(h) = (h - 7) / 13 * 100`; and that mapping is strictly
increasing in the parsed hour. -/
theorem c4_parse_and_position_monotone :
    (∀ hs ms : List Char, 1 ≤ hs.length → hs.length ≤ 2 → ms.length = 2 →
      (∀ c ∈ hs, c.isDigit = true) → (∀ c ∈ ms, c.isDigit = true) →
      digitsToNat hs ≤ 23 → digitsToNat ms ≤ 59 →
      convertTimeToNumber (String.mk (hs ++ ':' :: ms))
        = some ((digitsToNat hs : ℚ) + (digitsToNat ms : ℚ) / 60))
    ∧ (∀ q : ℚ, jPosition (some q) = some (positionOf q))
    ∧ ∀ x y : ℚ, x < y → positionOf x < positionOf y := by
  refine ⟨fun hs ms hl1 _ hm2 hhd hmd _ _ => ?_, jPosition_some,
    fun x y hxy => ?_⟩
  · exact convertTimeToNumber_digits hs ms
      (by intro he; rw [he] at hl1; simp at hl1) hhd
      (by intro he; rw [he] at hm2; simp at hm2) hmd
  · unfold positionOf
    have h13 : (0 : ℚ) < 13 := by norm_num
    have := div_lt_div_of_pos_right (sub_lt_sub_right hxy 7) h13
    nlinarith

theorem c4_witness :
    convertTimeToNumber (String.mk ([ '0', '9'] ++ ':' :: [ '3', '0']))
      = some ((digitsToNat [ '0', '9'] : ℚ) + (digitsToNat [ '3', '0'] : ℚ) / 60)
    ∧ positionOf 9 < positionOf 10 :=
  ⟨c4_parse_and_position_monotone.1 [ '0', '9'] [ '3', '0'] (by decide)
      (by decide) (by decide) (by decide) (by decide) (by decide) (by decide),
    c4_parse_and_position_monotone.2.2 9 10 (by norm_num)⟩

theorem flatMap_length_sum {α β : Type} (f : α → List β) :
    ∀ l : List α, (l.flatMap f).length = (l.map fun a => (f a).length).sum
  | [] => rfl
  | a :: l => by
    simp [List.flatMap_cons, flatMap_length_sum f l]

theorem eventsOfSlot_length (slot : TimeSlot) :
    (eventsOfSlot slot).length = (splitEventValue (slot.value.getD "")).length := by
  simp [eventsOfSlot]

theorem eventsOfSlot_getD (slot : TimeSlot) (i : ℕ)
    (hi : i < (eventsOfSlot slot).length) :
    (eventsOfSlot slot).getD i default =
      { start := slot.start
        «end» := slot.«end»
        value := (splitEventValue (slot.value.getD "")).getD i ""
        startPosition := jPosition (convertTimeToNumber slot.start)
        duration := jmul (jdiv (jsub (convertTimeToNumber slot.«end»)
          (convertTimeToNumber slot.start)) (some 13)) (some 100)
        splitIndex := i
        totalSplits := (splitEventValue (slot.value.getD "")).length
        continuationGroup :=
          findCEMatch ((splitEventValue (slot.value.getD "")).getD i "").data } := by
  have hi' : i < (splitEventValue (slot.value.getD "")).length := by
    simpa [eventsOfSlot] using hi
  rw [List.getD_eq_getElem _ _ hi, List.getD_eq_getElem _ _ hi']
  simp [eventsOfSlot, List.getElem_map, List.getElem_enum]

theorem eventsOfSlot_startPosition {slot : TimeSlot} {e : PositionedEvent}
    (he : e ∈ eventsOfSlot slot) :
    e.startPosition = jPosition (convertTimeToNumber slot.start)
    ∧ e.duration = jmul (jdiv (jsub (convertTimeToNumber slot.«end»)
        (convertTimeToNumber slot.start)) (some 13)) (some 100) := by
  unfold eventsOfSlot at he
  rcases List.mem_map.mp he with ⟨p, _, rfl⟩
  exact ⟨rfl, rfl⟩

/-- C3: the split stage emits one event per non-empty line of each kept
(truthy-valued) slot, so the pre-merge count is the sum of per-slot line
counts; each event's `splitIndex` is its 0-based position in the split list
and `totalSplits` its length; and events of one slot share position and
duration. -/
theorem c3_split_count_and_indices (s : DaySchedule) :
    ((processedEvents s).length =
      ((s.data.filter fun slot => truthyValue slot.value).map
        (fun slot => (splitEventValue (slot.value.getD "")).length)).sum)
    ∧ (∀ slot : TimeSlot,
        (eventsOfSlot slot).length = (splitEventValue (slot.value.getD "")).length)
    ∧ (∀ slot : TimeSlot, ∀ i : ℕ, i < (eventsOfSlot slot).length →
        ((eventsOfSlot slot).getD i default).splitIndex = i ∧
        ((eventsOfSlot slot).getD i default).totalSplits
          = (splitEventValue (slot.value.getD "")).length ∧
        ((eventsOfSlot slot).getD i default).value
          = (splitEventValue (slot.value.getD "")).getD i "")
    ∧ ∀ slot : TimeSlot, ∀ e ∈ eventsOfSlot slot, ∀ o ∈ eventsOfSlot slot,
        e.startPosition = o.startPosition ∧ e.duration = o.duration := by
  refine ⟨?_, eventsOfSlot_length, ?_, ?_⟩
  · rw [processedEvents, List.length_insertionSort, preSortEvents,
      flatMap_length_sum]
    congr 1
    exact List.map_congr_left fun slot _ => eventsOfSlot_length slot
  · intro slot i hi
    rw [eventsOfSlot_getD slot i hi]
    exact ⟨rfl, rfl, rfl⟩
  · intro slot e he o ho
    rcases eventsOfSlot_startPosition he with ⟨he1, he2⟩
    rcases eventsOfSlot_startPosition ho with ⟨ho1, ho2⟩
    rw [he1, he2, ho1, ho2]
    exact ⟨rfl, rfl⟩

theorem c3_witness :
    ((eventsOfSlot ⟨"09:00", "10:00", some "CE 1A 101\nMATH 2B 210"⟩).getD 1
        default).splitIndex = 1 ∧
    ((eventsOfSlot ⟨"09:00", "10:00", some "CE 1A 101\nMATH 2B 210"⟩).getD 1
        default).totalSplits
      = (splitEventValue "CE 1A 101\nMATH 2B 210").length ∧
    ((eventsOfSlot ⟨"09:00", "10:00", some "CE 1A 101\nMATH 2B 210"⟩).getD 1
        default).value
      = (splitEventValue "CE 1A 101\nMATH 2B 210").getD 1 "" :=
  (c3_split_count_and_indices simpleDay).2.2.1
    ⟨"09:00", "10:00", some "CE 1A 101\nMATH 2B 210"⟩ 1 (by decide)

theorem mergeStep_eq (evs : List PositionedEvent) (acc : List MergedEntry)
    (i : ℕ) (event : PositionedEvent) :
    mergeStep evs acc i event = acc ++ (mergeDecide evs (i, event)).toList := by
  unfold mergeStep mergeDecide
  rcases event.continuationGroup with _ | k
  · rfl
  · by_cases h0 : (groupFor evs k).length = 0
    · simp [h0]
    · by_cases h1 : (groupFor evs k).length ≤ 1
      · simp [h0, h1]
      · by_cases h2 : i = firstKeyIdx evs k <;> simp [h0, h1, h2]

theorem foldl_mergeStep (evs : List PositionedEvent) :
    ∀ (l : List (ℕ × PositionedEvent)) (acc : List MergedEntry),
      l.foldl (fun acc p => mergeStep evs acc p.1 p.2) acc
        = acc ++ l.filterMap (mergeDecide evs)
  | [], acc => by simp
  | p :: l, acc => by
    rw [List.foldl_cons, foldl_mergeStep evs l, mergeStep_eq, List.filterMap_cons]
    rcases h : mergeDecide evs (p.1, p.2) with _ | ent <;> simp [h, Option.toList]

theorem mergedEntries_eq (evs : List PositionedEvent) :
    mergedEntries evs = evs.enum.filterMap (mergeDecide evs) := by
  rw [mergedEntries, foldl_mergeStep, List.nil_append]

theorem headD_filter_eq_getElem_findIdx {p : PositionedEvent → Bool} :
    ∀ {l : List PositionedEvent} (h : l.findIdx p < l.length) (d : PositionedEvent),
      (l.filter p).headD d = l[l.findIdx p]
  | [], h, _ => by simp at h
  | a :: l, h, d => by
    by_cases hp : p a
    · simp [List.filter_cons, hp, List.findIdx_cons]
    · have hfi : (a :: l).findIdx p = l.findIdx p + 1 := by
        simp [List.findIdx_cons, hp]
      have hlt : l.findIdx p < l.length := by
        rw [hfi] at h
        simpa using h
      rw [List.filter_cons, if_neg (by simp [hp]),
        headD_filter_eq_getElem_findIdx hlt d]
      simp only [hfi, List.getElem_cons_succ]

theorem getLastD_of_ne_nil {l : List PositionedEvent} (h : l ≠ [])
    (d d' : PositionedEvent) : l.getLastD d = l.getLastD d' := by
  rw [List.getLastD_eq_getLast?, List.getLastD_eq_getLast?]
  rcases hl : l.getLast? with _ | a
  · exact absurd (List.getLast?_eq_none_iff.mp hl) h
  · rfl

theorem filterMap_enumFrom_single {α β : Type} (i0 : ℕ) (b : β) :
    ∀ (l : List α) (n : ℕ) (f : ℕ × α → Option β),
      (∀ p ∈ l.enumFrom n, f p = if p.1 = i0 then some b else none) →
      (l.enumFrom n).filterMap f
        = if n ≤ i0 ∧ i0 < n + l.length then [b] else []
  | [], n, f, _ => by
    simp only [List.enumFrom_nil, List.filterMap_nil, List.length_nil]
    rw [if_neg (by omega)]
  | a :: l, n, f, h => by
    rw [List.enumFrom_cons, List.filterMap_cons]
    have ha := h (n, a) (by rw [List.enumFrom_cons]; exact List.mem_cons_self _ _)
    have hrest := fun p hp => h p (by rw [List.enumFrom_cons]; exact List.mem_cons_of_mem _ hp)
    rw [filterMap_enumFrom_single i0 b l (n + 1) f hrest]
    by_cases hn : n = i0
    · rw [ha, if_pos hn]
      rw [if_neg (by omega), if_pos (by simp; omega)]
    · rw [ha, if_neg hn]
      simp only [List.length_cons]
      by_cases hle : n + 1 ≤ i0 ∧ i0 < n + 1 + l.length
      · rw [if_pos hle, if_pos (by omega)]
      · rw [if_neg hle, if_neg (by omega)]

theorem mkMergedEvent_fields (event lastEvent : PositionedEvent) :
    (mkMergedEvent event lastEvent).value = event.value
    ∧ (mkMergedEvent event lastEvent).start = event.start
    ∧ (mkMergedEvent event lastEvent).startPosition = event.startPosition
    ∧ (mkMergedEvent event lastEvent).splitIndex = event.splitIndex
    ∧ (mkMergedEvent event lastEvent).totalSplits = event.totalSplits
    ∧ (mkMergedEvent event lastEvent).continuationGroup = event.continuationGroup
    ∧ (mkMergedEvent event lastEvent).isOverlapping = event.isOverlapping
    ∧ (mkMergedEvent event lastEvent).«end» = lastEvent.«end» :=
  ⟨rfl, rfl, rfl, rfl, rfl, rfl, rfl, rfl⟩

theorem groupFor_mergedEvents_of_two_le (evs : List PositionedEvent) (k : String)
    (hk : 2 ≤ (groupFor evs k).length) :
    groupFor (mergedEvents evs) k =
      [mkMergedEvent ((groupFor evs k).headD default)
        ((groupFor evs k).getLastD default)] := by
  have hex : ∃ x ∈ evs, (x.continuationGroup == some k) = true := by
    have hpos : 0 < (groupFor evs k).length := by omega
    rcases List.length_pos_iff_exists_mem.mp hpos with ⟨x, hx⟩
    rcases List.mem_filter.mp hx with ⟨hx1, hx2⟩
    exact ⟨x, hx1, hx2⟩
  have hi0 : firstKeyIdx evs k < evs.length :=
    List.findIdx_lt_length_of_exists hex
  have hkeyD : (evs.getD (firstKeyIdx evs k) default).continuationGroup = some k := by
    rw [List.getD_eq_getElem _ _ hi0]
    have h := List.findIdx_getElem (w := hi0)
    simpa using h
  have hne : groupFor evs k ≠ [] := by
    intro hnil
    rw [hnil] at hk
    simp at hk
  have hhead : (groupFor evs k).headD default
      = evs.getD (firstKeyIdx evs k) default := by
    rw [List.getD_eq_getElem _ _ hi0]
    exact headD_filter_eq_getElem_findIdx hi0 default
  have hstep : groupFor (mergedEvents evs) k
      = (evs.enumFrom 0).filterMap
          (fun q => Option.filter
            (fun ent => ent.continuationGroup == some k)
            ((mergeDecide evs q).map entryEvent)) := by
    rw [groupFor, mergedEvents, mergedEntries_eq, List.enum_eq_enumFrom]
    rw [List.map_filterMap, List.filter_filterMap]
  have hsingle : (evs.enumFrom 0).filterMap
      (fun q => Option.filter (fun ent => ent.continuationGroup == some k)
        ((mergeDecide evs q).map entryEvent))
      = if 0 ≤ firstKeyIdx evs k ∧ firstKeyIdx evs k < 0 + evs.length
        then [entryEvent (MergedEntry.fresh
          (mkMergedEvent (evs.getD (firstKeyIdx evs k) default)
            ((groupFor evs k).getLastD (evs.getD (firstKeyIdx evs k) default))))]
        else [] := by
    apply filterMap_enumFrom_single (firstKeyIdx evs k) _ evs 0
    intro q hq
    obtain ⟨j, x⟩ := q
    dsimp only
    rw [← List.enum_eq_enumFrom] at hq
    have hx := List.mk_mem_enum_iff_getElem?.mp hq
    have hj : j < evs.length := by
      rcases List.getElem?_eq_some_iff.mp hx with ⟨hj, _⟩
      exact hj
    have hxeq : x = evs.getD j default := by
      rw [List.getD_eq_getElem _ _ hj]
      rcases List.getElem?_eq_some_iff.mp hx with ⟨_, he⟩
      exact he.symm
    rcases hcg : x.continuationGroup with _ | k'
    · have hjne : ¬(j = firstKeyIdx evs k) := by
        intro hji
        rw [hji] at hxeq
        rw [hxeq, hkeyD] at hcg
        exact Option.noConfusion hcg
      rw [if_neg hjne]
      simp [mergeDecide, hcg, Option.filter, entryEvent]
    · by_cases hkk : k = k'
      · subst hkk
        have h0 : ¬((groupFor evs k).length = 0) := by omega
        have h1 : ¬((groupFor evs k).length ≤ 1) := by omega
        by_cases hji : j = firstKeyIdx evs k
        · rw [if_pos hji, ← hji, ← hxeq]
          have hmd : mergeDecide evs (j, x) = some (MergedEntry.fresh
              (mkMergedEvent x ((groupFor evs k).getLastD x))) := by
            simp only [mergeDecide, hcg]
            rw [if_neg h0, if_neg h1, if_pos hji]
          have hpk : ((mkMergedEvent x
              ((groupFor evs k).getLastD x)).continuationGroup == some k) = true := by
            rw [(mkMergedEvent_fields _ _).2.2.2.2.2.1, hcg]
            simp
          simp [hmd, Option.filter, entryEvent, hpk]
          rw [(mkMergedEvent_fields _ _).2.2.2.2.2.1]
          exact hcg
        · rw [if_neg hji]
          simp only [mergeDecide, hcg, h0, if_false, h1]
          rw [if_neg hji]
          simp [Option.filter]
      · have hjne : ¬(j = firstKeyIdx evs k) := by
          intro hji
          rw [hji] at hxeq
          rw [hxeq, hkeyD] at hcg
          exact hkk (by injection hcg)
        rw [if_neg hjne]
        rcases hmd : (mergeDecide evs (j, x)).map entryEvent with _ | ent
        · rfl
        · have hkent : ent.continuationGroup = some k' := by
            rcases Option.map_eq_some'.mp hmd with ⟨me, hme, rfl⟩
            simp only [mergeDecide, hcg] at hme
            split at hme
            · cases hme
              simpa [entryEvent] using hcg
            · split at hme
              · cases hme
                simpa [entryEvent] using hcg
              · split at hme
                · cases hme
                  show (mkMergedEvent _ _).continuationGroup = some k'
                  rw [(mkMergedEvent_fields _ _).2.2.2.2.2.1, hcg]
                · exact Option.noConfusion hme
          have hfalse : (ent.continuationGroup == some k) = false := by
            rw [hkent]
            simp
            exact fun he => hkk he.symm
          simp [Option.filter, hfalse]
  rw [hstep, hsingle, if_pos ⟨Nat.zero_le _, by omega⟩]
  simp only [entryEvent]
  rw [hhead, getLastD_of_ne_nil hne default (evs.getD (firstKeyIdx evs k) default)]

theorem mem_mergedEvents_of_passthrough (evs : List PositionedEvent)
    (e : PositionedEvent) (he : e ∈ evs)
    (hcond : e.continuationGroup = none
      ∨ ∃ k, e.continuationGroup = some k ∧ (groupFor evs k).length = 1) :
    e ∈ mergedEvents evs := by
  rcases List.mem_iff_getElem.mp he with ⟨i, hi, rfl⟩
  have henum : (i, evs[i]) ∈ evs.enum :=
    List.mk_mem_enum_iff_getElem?.mpr (List.getElem?_eq_getElem hi)
  have hmd : mergeDecide evs (i, evs[i]) = some (MergedEntry.ref i evs[i]) := by
    rcases hcond with hnone | ⟨k, hk, hlen⟩
    · simp [mergeDecide, hnone]
    · simp only [mergeDecide, hk]
      rw [if_neg (by omega), if_pos (by omega)]
  rw [mergedEvents, mergedEntries_eq]
  exact List.mem_map.mpr ⟨MergedEntry.ref i evs[i],
    List.mem_filterMap.mpr ⟨(i, evs[i]), henum, hmd⟩, rfl⟩

/-- C1: for every continuation group of size ≥ 2 the merge stage keeps, of
the whole group, exactly one event — the group's first (in split-and-sorted
order), with `end` replaced by the last member's `end` and `duration`
recomputed as `(parseHour(last.end) - parseHour(first.start)) / 13 * 100` —
and every event with no key or in a singleton group passes through. -/
theorem c1_continuation_merge (evs : List PositionedEvent) :
    (∀ k : String, 2 ≤ (groupFor evs k).length →
      groupFor (mergedEvents evs) k =
        [{ (groupFor evs k).headD default with
            «end» := ((groupFor evs k).getLastD default).«end»
            duration := jmul (jdiv (jsub
                (convertTimeToNumber (((groupFor evs k).getLastD default).«end»))
                (convertTimeToNumber (((groupFor evs k).headD default).start)))
              (some 13)) (some 100) }])
    ∧ (∀ e ∈ evs, e.continuationGroup = none → e ∈ mergedEvents evs)
    ∧ (∀ e ∈ evs, ∀ k : String, e.continuationGroup = some k →
        (groupFor evs k).length = 1 → e ∈ mergedEvents evs) := by
  refine ⟨fun k hk => ?_,
    fun e he h => mem_mergedEvents_of_passthrough evs e he (Or.inl h),
    fun e he k hk hlen =>
      mem_mergedEvents_of_passthrough evs e he (Or.inr ⟨k, hk, hlen⟩)⟩
  rw [groupFor_mergedEvents_of_two_le evs k hk]
  rfl

theorem c1_witness :
    groupFor (mergedEvents (processedEvents mergeDay)) "CE 1A 101" =
      [{ (groupFor (processedEvents mergeDay) "CE 1A 101").headD default with
          «end» := ((groupFor (processedEvents mergeDay)
            "CE 1A 101").getLastD default).«end»
          duration := jmul (jdiv (jsub
              (convertTimeToNumber (((groupFor (processedEvents mergeDay)
                "CE 1A 101").getLastD default).«end»))
              (convertTimeToNumber (((groupFor (processedEvents mergeDay)
                "CE 1A 101").headD default).start)))
            (some 13)) (some 100) }] :=
  (c1_continuation_merge (processedEvents mergeDay)).1 "CE 1A 101" (by decide)

/-- C7: the merge never changes `value` (nor `start`, `startPosition`,
`splitIndex`, `totalSplits`, `continuationGroup`): every output event equals
some pre-merge event, either verbatim or — only for the first member of a
group of size ≥ 2 — with just `end` (to the last member's `end`) and
`duration` replaced. -/
theorem c7_merge_preserves_fields (evs : List PositionedEvent) :
    ∀ out ∈ mergedEvents evs, ∃ e ∈ evs,
      out.value = e.value ∧ out.start = e.start ∧
      out.startPosition = e.startPosition ∧
      out.splitIndex = e.splitIndex ∧ out.totalSplits = e.totalSplits ∧
      out.continuationGroup = e.continuationGroup ∧
      (out = e ∨ ∃ k : String, e.continuationGroup = some k ∧
        2 ≤ (groupFor evs k).length ∧
        out.«end» = ((groupFor evs k).getLastD e).«end») := by
  intro out hout
  rw [mergedEvents, mergedEntries_eq] at hout
  rcases List.mem_map.mp hout with ⟨ent, hent, rfl⟩
  rcases List.mem_filterMap.mp hent with ⟨p, hp, hmd⟩
  obtain ⟨j, x⟩ := p
  have hxmem : x ∈ evs :=
    List.getElem?_mem (List.mk_mem_enum_iff_getElem?.mp hp)
  rcases hcg : x.continuationGroup with _ | k
  · simp only [mergeDecide, hcg] at hmd
    cases hmd
    exact ⟨x, hxmem, rfl, rfl, rfl, rfl, rfl, rfl, Or.inl rfl⟩
  · simp only [mergeDecide, hcg] at hmd
    split at hmd
    · cases hmd
      exact ⟨x, hxmem, rfl, rfl, rfl, rfl, rfl, rfl, Or.inl rfl⟩
    · split at hmd
      · cases hmd
        exact ⟨x, hxmem, rfl, rfl, rfl, rfl, rfl, rfl, Or.inl rfl⟩
      · split at hmd
        · cases hmd
          refine ⟨x, hxmem, rfl, rfl, rfl, rfl, rfl, rfl,
            Or.inr ⟨k, hcg, by omega, rfl⟩⟩
        · exact Option.noConfusion hmd

theorem c7_witness :
    ∃ e ∈ processedEvents mergeDay,
      ((mergedEvents (processedEvents mergeDay)).getD 0 default).value = e.value ∧
      ((mergedEvents (processedEvents mergeDay)).getD 0 default).start = e.start ∧
      ((mergedEvents (processedEvents mergeDay)).getD 0 default).startPosition
        = e.startPosition ∧
      ((mergedEvents (processedEvents mergeDay)).getD 0 default).splitIndex
        = e.splitIndex ∧
      ((mergedEvents (processedEvents mergeDay)).getD 0 default).totalSplits
        = e.totalSplits ∧
      ((mergedEvents (processedEvents mergeDay)).getD 0 default).continuationGroup
        = e.continuationGroup ∧
      ((mergedEvents (processedEvents mergeDay)).getD 0 default = e
        ∨ ∃ k : String, e.continuationGroup = some k ∧
          2 ≤ (groupFor (processedEvents mergeDay) k).length ∧
          ((mergedEvents (processedEvents mergeDay)).getD 0 default).«end»
            = ((groupFor (processedEvents mergeDay) k).getLastD e).«end») :=
  c7_merge_preserves_fields (processedEvents mergeDay)
    ((mergedEvents (processedEvents mergeDay)).getD 0 default) (by decide)

theorem annotateOverlaps_getD (evs : List PositionedEvent) (i : ℕ)
    (hi : i < evs.length) :
    (annotateOverlaps evs).getD i default =
      { evs.getD i default with isOverlapping := some (decide (0 <
          (evs.enum.filter (fun q => q.1 != i
            && overlapsB (evs.getD i default) q.2)).length)) } := by
  have hlen : i < (annotateOverlaps evs).length := by
    simpa [annotateOverlaps] using hi
  rw [List.getD_eq_getElem _ _ hlen, List.getD_eq_getElem _ _ hi]
  simp [annotateOverlaps, List.getElem_map, List.getElem_enum,
    List.getD_eq_getElem _ _ hi]

theorem overlapFilter_pos_iff (evs : List PositionedEvent) (i : ℕ)
    (_hi : i < evs.length) :
    (0 < (evs.enum.filter (fun q => q.1 != i
        && overlapsB (evs.getD i default) q.2)).length)
    ↔ ∃ j < evs.length, j ≠ i ∧
        overlapsB (evs.getD i default) (evs.getD j default) = true := by
  rw [List.length_pos_iff_exists_mem]
  constructor
  · rintro ⟨q, hq⟩
    rcases List.mem_filter.mp hq with ⟨hqm, hqp⟩
    obtain ⟨j, x⟩ := q
    have hx := List.mk_mem_enum_iff_getElem?.mp hqm
    have hj : j < evs.length := by
      rcases List.getElem?_eq_some_iff.mp hx with ⟨hj, _⟩
      exact hj
    have hxeq : x = evs.getD j default := by
      rw [List.getD_eq_getElem _ _ hj]
      rcases List.getElem?_eq_some_iff.mp hx with ⟨_, he⟩
      exact he.symm
    rcases Bool.and_eq_true_iff.mp hqp with ⟨hne, hov⟩
    refine ⟨j, hj, by simpa using hne, ?_⟩
    rw [← hxeq]
    exact hov
  · rintro ⟨j, hj, hne, hov⟩
    refine ⟨(j, evs.getD j default), List.mem_filter.mpr ⟨?_, ?_⟩⟩
    · refine List.mk_mem_enum_iff_getElem?.mpr ?_
      rw [List.getElem?_eq_getElem hj, List.getD_eq_getElem _ _ hj]
    · simp only [Bool.and_eq_true_iff]
      exact ⟨by simpa using hne, hov⟩

theorem annotate_isOverlapping (evs : List PositionedEvent) (i : ℕ)
    (hi : i < evs.length) :
    ((annotateOverlaps evs).getD i default).isOverlapping
      = some (decide (∃ j < evs.length, j ≠ i ∧
          overlapsB (evs.getD i default) (evs.getD j default) = true)) := by
  rw [annotateOverlaps_getD _ _ hi]
  exact congrArg some (decide_eq_decide.mpr (overlapFilter_pos_iff _ _ hi))

/-- C2: the overlap pass runs over the pre-merge (split-and-sorted) list, and
flags event `i` exactly when some other pre-merge event's half-open position
interval intersects its own. -/
theorem c2_overlap_on_pre_merge (s : DaySchedule) (i : ℕ)
    (hi : i < (processedEvents s).length) :
    ((annotateOverlaps (processedEvents s)).getD i default).isOverlapping
      = some (decide (∃ j < (processedEvents s).length, j ≠ i ∧
          overlapsB ((processedEvents s).getD i default)
            ((processedEvents s).getD j default) = true)) :=
  annotate_isOverlapping (processedEvents s) i hi

theorem c2_witness :
    ((annotateOverlaps (processedEvents overlapDay)).getD 0 default).isOverlapping
      = some (decide (∃ j < (processedEvents overlapDay).length, j ≠ 0 ∧
          overlapsB ((processedEvents overlapDay).getD 0 default)
            ((processedEvents overlapDay).getD j default) = true)) :=
  c2_overlap_on_pre_merge overlapDay 0 (by decide)

theorem overlapsB_comm (e o : PositionedEvent) : overlapsB e o = overlapsB o e := by
  rw [overlapsB, overlapsB, Bool.or_comm]

/-- C9: the overlap test is symmetric — if event `i` is flagged because its
interval intersects event `j`'s, then `j` is flagged because of `i`. -/
theorem c9_overlap_symmetric (evs : List PositionedEvent) (i j : ℕ)
    (hi : i < evs.length) (hj : j < evs.length) (hne : j ≠ i)
    (hov : overlapsB (evs.getD i default) (evs.getD j default) = true) :
    overlapsB (evs.getD j default) (evs.getD i default) = true
    ∧ ((annotateOverlaps evs).getD i default).isOverlapping = some true
    ∧ ((annotateOverlaps evs).getD j default).isOverlapping = some true := by
  have hsym : overlapsB (evs.getD j default) (evs.getD i default) = true := by
    rw [overlapsB_comm]
    exact hov
  refine ⟨hsym, ?_, ?_⟩
  · have hpos := (overlapFilter_pos_iff evs i hi).mpr ⟨j, hj, hne, hov⟩
    rw [annotateOverlaps_getD _ _ hi]
    exact congrArg some (decide_eq_true hpos)
  · have hpos := (overlapFilter_pos_iff evs j hj).mpr
      ⟨i, hi, fun h => hne h.symm, hsym⟩
    rw [annotateOverlaps_getD _ _ hj]
    exact congrArg some (decide_eq_true hpos)

theorem c9_witness :
    overlapsB ((processedEvents overlapDay).getD 1 default)
        ((processedEvents overlapDay).getD 0 default) = true
    ∧ ((annotateOverlaps (processedEvents overlapDay)).getD 0
        default).isOverlapping = some true
    ∧ ((annotateOverlaps (processedEvents overlapDay)).getD 1
        default).isOverlapping = some true :=
  c9_overlap_symmetric (processedEvents overlapDay) 0 1 (by decide) (by decide)
    (by decide) (by decide)

theorem mem_processedEvents_isOverlapping_none (s : DaySchedule) :
    ∀ e ∈ processedEvents s, e.isOverlapping = none := by
  intro e he
  rw [processedEvents, List.mem_insertionSort] at he
  rcases List.mem_flatMap.mp he with ⟨slot, _, hes⟩
  unfold eventsOfSlot at hes
  rcases List.mem_map.mp hes with ⟨p, _, rfl⟩
  rfl

theorem mergedEntries_spec (evs : List PositionedEvent) :
    ∀ ent ∈ mergedEntries evs,
      (∀ i e, ent = MergedEntry.ref i e → i < evs.length ∧ e ∈ evs)
      ∧ (∀ e, ent = MergedEntry.fresh e →
          ∃ x ∈ evs, e.isOverlapping = x.isOverlapping) := by
  intro ent hent
  rw [mergedEntries_eq] at hent
  rcases List.mem_filterMap.mp hent with ⟨⟨j, x⟩, hp, hmd⟩
  have hx := List.mk_mem_enum_iff_getElem?.mp hp
  have hj : j < evs.length := by
    rcases List.getElem?_eq_some_iff.mp hx with ⟨hj, _⟩
    exact hj
  have hxm : x ∈ evs := List.getElem?_mem hx
  have hcases : ent = MergedEntry.ref j x
      ∨ ∃ last, ent = MergedEntry.fresh (mkMergedEvent x last) := by
    rcases hcg : x.continuationGroup with _ | k
    · simp only [mergeDecide, hcg] at hmd
      cases hmd
      exact Or.inl rfl
    · simp only [mergeDecide, hcg] at hmd
      split at hmd
      · cases hmd
        exact Or.inl rfl
      · split at hmd
        · cases hmd
          exact Or.inl rfl
        · split at hmd
          · cases hmd
            exact Or.inr ⟨_, rfl⟩
          · exact Option.noConfusion hmd
  constructor
  · intro i e hei
    rcases hcases with h | ⟨last, h⟩
    · rw [hei] at h
      injection h with h1 h2
      subst h1
      subst h2
      exact ⟨hj, hxm⟩
    · rw [hei] at h
      exact MergedEntry.noConfusion h
  · intro e hef
    rcases hcases with h | ⟨last, h⟩
    · rw [hef] at h
      exact MergedEntry.noConfusion h
    · rw [hef] at h
      injection h with h1
      subst h1
      exact ⟨x, hxm, (mkMergedEvent_fields _ _).2.2.2.2.2.2.1⟩

/-- C6: a merged (fresh-copy) event reaches the final output with
`isOverlapping` still unset (`none`), even when its merged interval
intersects other events — the overlap pass mutates only the pre-merge
objects — while every by-reference entry shows the pre-merge object's
computed flag. -/
theorem c6_merged_copy_never_flagged (s : DaySchedule) :
    ∀ ent ∈ mergedEntries (processedEvents s),
      renderEntry (processedEvents s) ent ∈ finalEvents s
      ∧ (∀ e, ent = MergedEntry.fresh e →
          (renderEntry (processedEvents s) ent).isOverlapping = none)
      ∧ (∀ i e, ent = MergedEntry.ref i e →
          (renderEntry (processedEvents s) ent).isOverlapping
            = some (decide (∃ j < (processedEvents s).length, j ≠ i ∧
                overlapsB ((processedEvents s).getD i default)
                  ((processedEvents s).getD j default) = true))) := by
  intro ent hent
  have hspec := mergedEntries_spec (processedEvents s) ent hent
  refine ⟨List.mem_map.mpr ⟨ent, hent, rfl⟩, ?_, ?_⟩
  · intro e hef
    rcases hspec.2 e hef with ⟨x, hxm, hiso⟩
    rw [hef, renderEntry, hiso]
    exact mem_processedEvents_isOverlapping_none s x hxm
  · intro i e hei
    rcases hspec.1 i e hei with ⟨hi, _⟩
    rw [hei, renderEntry]
    exact annotate_isOverlapping (processedEvents s) i hi

theorem c6_witness :
    renderEntry (processedEvents mergeDay)
        ((mergedEntries (processedEvents mergeDay)).getD 0
          (MergedEntry.fresh default)) ∈ finalEvents mergeDay
    ∧ (∀ e, (mergedEntries (processedEvents mergeDay)).getD 0
          (MergedEntry.fresh default) = MergedEntry.fresh e →
        (renderEntry (processedEvents mergeDay)
          ((mergedEntries (processedEvents mergeDay)).getD 0
            (MergedEntry.fresh default))).isOverlapping = none) :=
  ⟨(c6_merged_copy_never_flagged mergeDay
      ((mergedEntries (processedEvents mergeDay)).getD 0
        (MergedEntry.fresh default)) (by decide)).1,
    fun e he => (c6_merged_copy_never_flagged mergeDay
      ((mergedEntries (processedEvents mergeDay)).getD 0
        (MergedEntry.fresh default)) (by decide)).2.1 e he⟩

theorem pairwise_enumFrom_snd {α : Type} {R : α → α → Prop} :
    ∀ (l : List α) (n : ℕ), l.Pairwise R →
      (l.enumFrom n).Pairwise (fun p q => R p.2 q.2)
  | [], _, _ => by simp
  | a :: l, n, h => by
    rw [List.enumFrom_cons]
    rcases List.pairwise_cons.mp h with ⟨hhead, htail⟩
    refine List.pairwise_cons.mpr ⟨?_, pairwise_enumFrom_snd l (n + 1) htail⟩
    intro q hq
    have hmem : q.2 ∈ l := by
      have hm : q.2 ∈ (l.enumFrom (n + 1)).map Prod.snd :=
        List.mem_map_of_mem _ hq
      rwa [List.enumFrom_map_snd] at hm
    exact hhead _ hmem

theorem mergeDecide_startPosition (evs : List PositionedEvent)
    (p : ℕ × PositionedEvent) (ent : MergedEntry)
    (h : mergeDecide evs p = some ent) :
    (entryEvent ent).startPosition = p.2.startPosition := by
  rcases hcg : p.2.continuationGroup with _ | k
  · simp only [mergeDecide, hcg] at h
    cases h
    rfl
  · simp only [mergeDecide, hcg] at h
    split at h
    · cases h
      rfl
    · split at h
      · cases h
        rfl
      · split at h
        · cases h
          exact (mkMergedEvent_fields _ _).2.2.1
        · exact Option.noConfusion h

theorem pairwise_posLE_merged (evs : List PositionedEvent)
    (h : List.Pairwise posLE evs) :
    List.Pairwise posLE (mergedEvents evs) := by
  rw [mergedEvents, mergedEntries_eq, List.pairwise_map, List.pairwise_filterMap]
  have henum := pairwise_enumFrom_snd evs 0 h
  rw [← List.enum_eq_enumFrom] at henum
  refine henum.imp ?_
  intro p q hpq b hb b' hb'
  have h1 := mergeDecide_startPosition evs p b (Option.mem_def.mp hb)
  have h2 := mergeDecide_startPosition evs q b' (Option.mem_def.mp hb')
  rcases hpq with ⟨x, y, hx, hy, hxy⟩
  exact ⟨x, y, by rw [h1, hx], by rw [h2, hy], hxy⟩

/-- C8: the emitted event list is in ascending `startPosition` order with a
stable sort (ties keep the pre-sort order, which lists slots in input
order), and the merge stage preserves this sortedness. -/
theorem c8_sorted_and_stable (s : DaySchedule)
    (hwf : ∀ e ∈ processedEvents s, e.startPosition ≠ none) :
    List.Pairwise posLE (processedEvents s)
    ∧ (∀ q : ℚ, (processedEvents s).filter (fun e => e.startPosition == some q)
        = (preSortEvents s).filter (fun e => e.startPosition == some q))
    ∧ List.Pairwise posLE (mergedEvents (processedEvents s)) := by
  have hsorted : List.Pairwise sortLE (processedEvents s) :=
    List.sorted_insertionSort sortLE (preSortEvents s)
  have hpos : List.Pairwise posLE (processedEvents s) := by
    refine hsorted.imp_of_mem ?_
    intro a b ha hb hab
    rcases hx : a.startPosition with _ | x
    · exact absurd hx (hwf a ha)
    rcases hy : b.startPosition with _ | y
    · exact absurd hy (hwf b hb)
    refine ⟨x, y, hx, hy, ?_⟩
    have hb' : sortLEb a b = true := hab
    simp only [sortLEb, hx, hy, decide_eq_true_eq] at hb'
    exact hb'
  refine ⟨hpos, ?_, pairwise_posLE_merged _ hpos⟩
  intro q
  have hallq : ∀ e ∈ (preSortEvents s).filter
      (fun e => e.startPosition == some q), e.startPosition = some q := by
    intro e he
    exact beq_iff_eq.mp (List.mem_filter.mp he).2
  have hc : List.Pairwise sortLE ((preSortEvents s).filter
      (fun e => e.startPosition == some q)) := by
    apply List.pairwise_of_forall_mem_list
    intro a ha b hb
    show sortLEb a b = true
    simp [sortLEb, hallq a ha, hallq b hb]
  have hsub : ((preSortEvents s).filter
      (fun e => e.startPosition == some q)).Sublist (processedEvents s) :=
    List.sublist_insertionSort hc (List.filter_sublist _)
  have hsub2 : ((preSortEvents s).filter
        (fun e => e.startPosition == some q)).Sublist
      ((processedEvents s).filter (fun e => e.startPosition == some q)) := by
    have hstep := hsub.filter (fun e => e.startPosition == some q)
    rwa [List.filter_eq_self.mpr
      (fun a ha => (List.mem_filter.mp ha).2)] at hstep
  have hlen : ((processedEvents s).filter
        (fun e => e.startPosition == some q)).length
      = ((preSortEvents s).filter
        (fun e => e.startPosition == some q)).length :=
    (List.Perm.filter _ (List.perm_insertionSort sortLE (preSortEvents s))).length_eq
  exact (hsub2.eq_of_length hlen.symm).symm

theorem c8_witness :
    List.Pairwise posLE (processedEvents tieDay)
    ∧ (processedEvents tieDay).filter
        (fun e => e.startPosition == some ((200 : ℚ) / 13))
      = (preSortEvents tieDay).filter
        (fun e => e.startPosition == some ((200 : ℚ) / 13))
    ∧ List.Pairwise posLE (mergedEvents (processedEvents tieDay)) :=
  ⟨(c8_sorted_and_stable tieDay (by decide)).1,
    (c8_sorted_and_stable tieDay (by decide)).2.1 ((200 : ℚ) / 13),
    (c8_sorted_and_stable tieDay (by decide)).2.2⟩

theorem jsub_none_right (x : JNum) : jsub x none = none := by
  cases x <;> rfl

/-- C5 (counterexample): a day containing only a slot with an unparseable
start hour does not produce the output of the day with that slot removed —
the slot is not skipped. -/
theorem c5_counterexample :
    finalEvents malformedDay ≠ finalEvents malformedDayRemoved := by
  decide

/-- C5 (amended): on a slot whose start or end time fails to parse the
engine still does not crash, but it does not skip the slot either: the
slot's events stay in the output (all slots, well-formed or not, keep
contributing their events). NaN appears exactly where the failed parse
flows: an unparseable start makes both `startPosition` and `duration` NaN,
an unparseable end makes only `duration` NaN, and a slot whose start parses
keeps its finite `startPosition`. -/
theorem c5_amended_malformed_slot_kept (s : DaySchedule) (slot : TimeSlot)
    (hmem : slot ∈ s.data) (hval : truthyValue slot.value = true) :
    (∀ e ∈ eventsOfSlot slot, e ∈ processedEvents s)
    ∧ (convertTimeToNumber slot.start = none →
        ∀ e ∈ eventsOfSlot slot, e.startPosition = none ∧ e.duration = none)
    ∧ (convertTimeToNumber slot.«end» = none →
        ∀ e ∈ eventsOfSlot slot, e.duration = none)
    ∧ ∀ q : ℚ, convertTimeToNumber slot.start = some q →
        ∀ e ∈ eventsOfSlot slot, e.startPosition = some (positionOf q) := by
  refine ⟨?_, ?_, ?_, ?_⟩
  · intro e he
    rw [processedEvents, List.mem_insertionSort]
    exact List.mem_flatMap.mpr ⟨slot, List.mem_filter.mpr ⟨hmem, hval⟩, he⟩
  · intro hnan e he
    rcases eventsOfSlot_startPosition he with ⟨h1, h2⟩
    constructor
    · rw [h1, hnan]
      rfl
    · rw [h2, hnan, jsub_none_right]
      rfl
  · intro hnan e he
    rcases eventsOfSlot_startPosition he with ⟨_, h2⟩
    rw [h2, hnan]
    rfl
  · intro q hq e he
    rcases eventsOfSlot_startPosition he with ⟨h1, _⟩
    rw [h1, hq, jPosition_some]

theorem c5_witness :
    (eventsOfSlot badSlot).getD 0 default ∈ processedEvents mixedDay
    ∧ ((eventsOfSlot badSlot).getD 0 default).startPosition = none
    ∧ ((eventsOfSlot badSlot).getD 0 default).duration = none
    ∧ (eventsOfSlot badEndSlot).getD 0 default ∈ processedEvents mixedDay
    ∧ ((eventsOfSlot badEndSlot).getD 0 default).duration = none
    ∧ ((eventsOfSlot badEndSlot).getD 0 default).startPosition
        = some (positionOf 11) :=
  ⟨(c5_amended_malformed_slot_kept mixedDay badSlot (by decide) (by decide)).1
      _ (by decide),
    ((c5_amended_malformed_slot_kept mixedDay badSlot (by decide)
      (by decide)).2.1 (by decide) _ (by decide)).1,
    ((c5_amended_malformed_slot_kept mixedDay badSlot (by decide)
      (by decide)).2.1 (by decide) _ (by decide)).2,
    (c5_amended_malformed_slot_kept mixedDay badEndSlot (by decide)
      (by decide)).1 _ (by decide),
    (c5_amended_malformed_slot_kept mixedDay badEndSlot (by decide)
      (by decide)).2.2.1 (by decide) _ (by decide),
    (c5_amended_malformed_slot_kept mixedDay badEndSlot (by decide)
      (by decide)).2.2.2 11 (by decide) _ (by decide)⟩

theorem courseColorMap_getD (courseCodes : List String)
    (colorSchemes : List ColorScheme) (i : ℕ) (hi : i < courseCodes.length)
    (hpos : 0 < colorSchemes.length) (hmod : i % colorSchemes.length = 0) :
    (courseColorMap courseCodes colorSchemes).getD i ("", none)
      = (courseCodes.getD i "", none) := by
  have hlen : i < (courseColorMap courseCodes colorSchemes).length := by
    simpa [courseColorMap] using hi
  rw [List.getD_eq_getElem _ _ hlen, List.getD_eq_getElem _ _ hi]
  simp only [courseColorMap, List.getElem_map, List.getElem_enum]
  rw [if_neg (by omega)]
  have hmodz : ((i : ℤ) % (colorSchemes.length : ℤ)) = 0 := by omega
  rw [hmodz]
  rw [jsIndex, dif_neg (by norm_num)]

theorem mapGet_courseColorMap (courseCodes : List String)
    (colorSchemes : List ColorScheme) (i : ℕ) (hi : i < courseCodes.length)
    (hpos : 0 < colorSchemes.length) (hmod : i % colorSchemes.length = 0)
    (hnodup : courseCodes.Nodup) :
    mapGet (courseColorMap courseCodes colorSchemes) (courseCodes.getD i "")
      = some none := by
  have hentry := courseColorMap_getD courseCodes colorSchemes i hi hpos hmod
  have hlen : i < (courseColorMap courseCodes colorSchemes).length := by
    simpa [courseColorMap] using hi
  have hmem : ((courseCodes.getD i "", none) :
      String × Option ColorScheme) ∈ courseColorMap courseCodes colorSchemes := by
    rw [← hentry, List.getD_eq_getElem _ _ hlen]
    exact List.getElem_mem hlen
  have hfind : ((courseColorMap courseCodes colorSchemes).reverse.find?
      (fun e => e.1 == courseCodes.getD i "")).isSome = true := by
    rw [List.find?_isSome]
    exact ⟨(courseCodes.getD i "", none), List.mem_reverse.mpr hmem, by simp⟩
  rcases Option.isSome_iff_exists.mp hfind with ⟨e, he⟩
  have hkey : e.1 = courseCodes.getD i "" := by
    have := List.find?_some he
    simpa using this
  have hmem2 : e ∈ courseColorMap courseCodes colorSchemes :=
    List.mem_reverse.mp (List.mem_of_find?_eq_some he)
  have hval : e.2 = none := by
    rcases List.mem_iff_getElem.mp hmem2 with ⟨j, hj, hje⟩
    have hj' : j < courseCodes.length := by
      simpa [courseColorMap] using hj
    have hje' : e = (courseCodes[j],
        if colorSchemes.length = 0 then none
        else jsIndex colorSchemes
          ((j : ℤ) % (colorSchemes.length : ℤ) - 1)) := by
      rw [← hje]
      simp [courseColorMap, List.getElem_map, List.getElem_enum]
    have hkeyj : courseCodes[j] = courseCodes[i] := by
      have h1 : e.1 = courseCodes[j] := by
        rw [hje']
      rw [← h1, hkey, List.getD_eq_getElem _ _ hi]
    have hji : j = i := (hnodup.getElem_inj_iff).mp hkeyj
    subst hji
    have hmodz : ((j : ℤ) % (colorSchemes.length : ℤ)) = 0 := by omega
    rw [hje', if_neg (by omega), hmodz, jsIndex, dif_neg (by norm_num)]
  rw [mapGet, he]
  exact congrArg some hval

/-- C10: the table construction indexes `COLOR_SCHEMES` with
`(index % COLOR_SCHEMES.length) - 1` (operator precedence), so every course
code whose index is a multiple of the scheme count maps to `undefined`, and
`getCourseColor` silently falls back to `DEFAULT_COLOR` for values matching
such a code. -/
theorem c10_color_index_bug (courseCodes : List String)
    (colorSchemes : List ColorScheme) (defaultColor : ColorScheme) (i : ℕ)
    (hi : i < courseCodes.length) (hpos : 0 < colorSchemes.length)
    (hmod : i % colorSchemes.length = 0) (hnodup : courseCodes.Nodup) :
    (courseColorMap courseCodes colorSchemes).getD i ("", none)
      = (courseCodes.getD i "", none)
    ∧ ∀ value : String,
        findThreeDigitMatch none value.data = some (courseCodes.getD i "") →
        getCourseColor courseCodes colorSchemes defaultColor value
          = defaultColor := by
  refine ⟨courseColorMap_getD courseCodes colorSchemes i hi hpos hmod, ?_⟩
  intro value hmatch
  rw [getCourseColor, hmatch]
  show (match mapGet (courseColorMap courseCodes colorSchemes)
      (courseCodes.getD i "") with
    | some (some c) => c
    | _ => defaultColor) = defaultColor
  rw [mapGet_courseColorMap courseCodes colorSchemes i hi hpos hmod hnodup]

theorem c10_witness :
    (courseColorMap ["101", "216"]
        [⟨"bg-blue-100", "border-blue-200", "text-blue-800"⟩,
         ⟨"bg-green-100", "border-green-200", "text-green-800"⟩]).getD 0 ("", none)
      = ((["101", "216"] : List String).getD 0 "", none)
    ∧ getCourseColor ["101", "216"]
        [⟨"bg-blue-100", "border-blue-200", "text-blue-800"⟩,
         ⟨"bg-green-100", "border-green-200", "text-green-800"⟩]
        ⟨"bg-gray-100", "border-gray-200", "text-gray-600"⟩ "CE 1A 101"
      = ⟨"bg-gray-100", "border-gray-200", "text-gray-600"⟩ :=
  ⟨(c10_color_index_bug ["101", "216"]
      [⟨"bg-blue-100", "border-blue-200", "text-blue-800"⟩,
       ⟨"bg-green-100", "border-green-200", "text-green-800"⟩]
      ⟨"bg-gray-100", "border-gray-200", "text-gray-600"⟩ 0 (by decide)
      (by decide) (by decide) (by decide)).1,
    (c10_color_index_bug ["101", "216"]
      [⟨"bg-blue-100", "border-blue-200", "text-blue-800"⟩,
       ⟨"bg-green-100", "border-green-200", "text-green-800"⟩]
      ⟨"bg-gray-100", "border-gray-200", "text-gray-600"⟩ 0 (by decide)
      (by decide) (by decide) (by decide)).2 "CE 1A 101" (by decide)⟩

end DayView
